import Mathlib

/-!
Verification of the rtree directory-tree renderer (src/main.rs).

The program walks a directory tree, sorts and filters each directory's
entries, renders one line per surviving entry with box-drawing connectors,
and accumulates directory/file counts.  We model the filesystem as an
inductive tree (`FSNode`), the glob crate's patterns as token lists
(`GTok`), and the walker `list_contents` as a fuel-indexed function
(fuel only bounds recursion depth; a stabilization lemma shows the result
is fuel-independent once the fuel covers the relevant depth).

Strings are modelled through their character lists so that every
definition reduces in the kernel.  Rust sorts `OsString`s byte-wise;
for UTF-8 this coincides with codepoint-wise lexicographic order,
which `charsLt` implements.
-/

/-! ### Character-list string helpers (Rust `str` operations) -/

/-- Rust `a.starts_with(p)`: does the second list begin with the first? -/
def chStarts : List Char → List Char → Bool
  | [], _ => true
  | _ :: _, [] => false
  | a :: as, b :: bs => a == b && chStarts as bs

/-- Rust `s.starts_with(pre)`. -/
def strStartsWith (s pre : String) : Bool := chStarts pre.data s.data

/-- Rust `s.ends_with(suf)`. -/
def strEndsWith (s suf : String) : Bool := chStarts suf.data.reverse s.data.reverse

/-- Rust `s.is_empty()`. -/
def strIsEmpty (s : String) : Bool := s.data.isEmpty

/-- Rust `s.trim()` (whitespace stripped from both ends). -/
def strTrim (s : String) : String :=
  ⟨((s.data.dropWhile Char.isWhitespace).reverse.dropWhile Char.isWhitespace).reverse⟩

/-- Rust `s.trim_start_matches('/')`: drop every leading slash. -/
def dropSlashes (s : String) : String := ⟨s.data.dropWhile (fun c => c == '/')⟩

/-- Rust `s.split('|')` (empty pieces included). -/
def splitPipeChars : List Char → List (List Char)
  | [] => [[]]
  | c :: rest =>
    if c == '|' then [] :: splitPipeChars rest
    else
      match splitPipeChars rest with
      | [] => [[c]]
      | h :: t => (c :: h) :: t

/-- Rust `s.split('|')` on `String`s. -/
def splitPipe (s : String) : List String := (splitPipeChars s.data).map (fun cs => ⟨cs⟩)

/-- Rust `Path::join`.  An absolute right operand replaces the left one;
otherwise the name is appended with a single separator. -/
def pathJoin (d n : String) : String :=
  if strStartsWith n "/" then n
  else if strIsEmpty d then n
  else if strEndsWith d "/" then d ++ n
  else d ++ "/" ++ n

/-- Byte/codepoint-wise strict lexicographic order on character lists,
matching Rust's `OsString` ordering on valid UTF-8. -/
def charsLt : List Char → List Char → Bool
  | [], [] => false
  | [], _ :: _ => true
  | _ :: _, [] => false
  | a :: as, b :: bs =>
    if a.toNat < b.toNat then true
    else if b.toNat < a.toNat then false
    else charsLt as bs

/-- Strict name order used by the sort. -/
def nameLt (a b : String) : Bool := charsLt a.data b.data

/-- Reflexive name order (negation of the reversed strict order). -/
def nameLe (a b : String) : Bool := !charsLt b.data a.data

/-! ### Glob patterns (the `glob` crate, default `MatchOptions`) -/

/-- One compiled glob token: literal character, `?`, `*` (also the
recursive `**`, which matches the same with default options where `*`
may cross separators), or a `[...]`/`[!...]` class of ranges. -/
inductive GTok where
  | lit (c : Char)
  | anyChar
  | anySeq
  | cls (neg : Bool) (ranges : List (Char × Char))
deriving DecidableEq, Repr

/-- Parse the inside of a character class after the optional `!`:
a list of ranges (single characters become trivial ranges) and the
remainder after the closing bracket.  `none` on an unclosed class or
an inverted range, as in the glob crate. -/
def parseSpecs : List Char → Option (List (Char × Char) × List Char)
  | [] => none
  | ']' :: rest => some ([], rest)
  | a :: '-' :: b :: rest =>
    if b = ']' then some ([(a, a), ('-', '-')], rest)
    else if a.toNat ≤ b.toNat then
      (parseSpecs rest).map (fun pr => ((a, b) :: pr.1, pr.2))
    else none
  | a :: rest => (parseSpecs rest).map (fun pr => ((a, a) :: pr.1, pr.2))

/-- Tokenise a glob pattern.  The fuel is one more than the character
count, which every branch consumes faster than it consumes fuel, so
the 0 branch is unreachable from `globNew`.  The boolean records
whether we sit at the start or right after a separator (where alone a
recursive `**` wildcard is legal, as in the glob crate). -/
def parseToks : Nat → Bool → List Char → Option (List GTok)
  | 0, _, _ => none
  | _ + 1, _, [] => some []
  | f + 1, _, '?' :: rest => (parseToks f false rest).map (fun ts => GTok.anyChar :: ts)
  | f + 1, afterSep, '*' :: '*' :: rest =>
    if !afterSep then none
    else
      match rest with
      | [] => some [GTok.anySeq]
      | '/' :: rest2 => (parseToks f true rest2).map (fun ts => GTok.anySeq :: GTok.lit '/' :: ts)
      | _ => none
  | f + 1, _, '*' :: rest => (parseToks f false rest).map (fun ts => GTok.anySeq :: ts)
  | f + 1, _, '[' :: '!' :: rest =>
    (match parseSpecs rest with
     | none => none
     | some (rs, rem) =>
       if rs.isEmpty then none
       else (parseToks f false rem).map (fun ts => GTok.cls true rs :: ts))
  | f + 1, _, '[' :: rest =>
    (match parseSpecs rest with
     | none => none
     | some (rs, rem) =>
       if rs.isEmpty then none
       else (parseToks f false rem).map (fun ts => GTok.cls false rs :: ts))
  | f + 1, _, c :: rest => (parseToks f (c == '/') rest).map (fun ts => GTok.lit c :: ts)

/-- A compiled pattern: `Pattern::as_str()` keeps the original string. -/
structure GlobPat where
  original : String
  toks : List GTok
deriving DecidableEq, Repr

/-- Rust `Pattern::new`: `none` models a `PatternError` (the callers
drop such patterns via `filter_map(.ok)`). -/
def globNew (s : String) : Option GlobPat :=
  (parseToks (s.data.length + 1) true s.data).map (fun ts => { original := s, toks := ts })

/-- Character-class membership test. -/
def inClass (rs : List (Char × Char)) (c : Char) : Bool :=
  rs.any (fun r => decide (r.1.toNat ≤ c.toNat) && decide (c.toNat ≤ r.2.toNat))

/-- Glob matching with default options (`*` and `?` may cross `/`,
case sensitive).  Fuel is one more than tokens plus characters; every
recursive call lowers that sum, so the 0 branch is unreachable from
`globMatches`. -/
def gmatch : Nat → List GTok → List Char → Bool
  | 0, _, _ => false
  | _ + 1, [], s => s.isEmpty
  | f + 1, GTok.lit c :: ts, s =>
    (match s with
     | [] => false
     | d :: s2 => c == d && gmatch f ts s2)
  | f + 1, GTok.anyChar :: ts, s =>
    (match s with
     | [] => false
     | _ :: s2 => gmatch f ts s2)
  | f + 1, GTok.cls neg rs :: ts, s =>
    (match s with
     | [] => false
     | d :: s2 => (inClass rs d != neg) && gmatch f ts s2)
  | f + 1, GTok.anySeq :: ts, s =>
    gmatch f ts s ||
      (match s with
       | [] => false
       | _ :: s2 => gmatch f (GTok.anySeq :: ts) s2)

/-- Rust `pattern.matches(s)`. -/
def globMatches (p : GlobPat) (s : String) : Bool :=
  gmatch (p.toks.length + s.data.length + 1) p.toks s.data

/-! ### Filesystem model -/

/-- A filesystem node as the walker observes it through
`fs::symlink_metadata`, `fs::read_dir` and `fs::read_link`:
a directory (whose listing may fail: `dir none`), a regular file with
its permission mode, a symbolic link with its target (`none` when
`read_link` fails), or an entry whose metadata read fails. -/
inductive FSNode where
  | dir (entries : Option (List (String × FSNode)))
  | file (mode : Nat)
  | symlink (target : Option String)
  | metaErr
deriving Repr

/-- Discriminator for entries whose `symlink_metadata` call fails. -/
def FSNode.isMetaErr : FSNode → Bool
  | FSNode.metaErr => true
  | _ => false

/-- The run configuration (the CLI options the walker reads;
`parallel` is accepted but inert, as in the program). -/
structure Opt where
  max_depth : Option Nat
  show_hidden : Bool
  parallel : Bool
  ignore : Option String
  no_gitignore : Bool

/-- The statistics accumulator. -/
structure Stats where
  directories : Nat
  files : Nat
deriving DecidableEq, Repr

/-- Empty statistics (`Stats::default()`). -/
def Stats.zero : Stats := ⟨0, 0⟩

/-- Pointwise addition of statistics. -/
def Stats.add (a b : Stats) : Stats := ⟨a.directories + b.directories, a.files + b.files⟩

/-- Classification of one rendered entry, mutually exclusive as in the
if/else chain of the loop body. -/
inductive EKind where
  | symlink (target : Option String)
  | dir
  | exec
  | regular
deriving DecidableEq, Repr

/-- One rendered output line in structured form: the ancestor
last-sibling flags, this entry's own last-sibling flag, its base name,
its full path, and its classification. -/
structure Line where
  ancestors : List Bool
  isLast : Bool
  name : String
  epath : String
  kind : EKind
deriving DecidableEq, Repr

/-- One ancestor segment of the line head: blanks if that ancestor was
its level's last sibling, a continuation bar otherwise. -/
def segString (last : Bool) : String := if last then "    " else "│   "

/-- The connector before the entry name. -/
def connector (isLast : Bool) : String := if isLast then "└── " else "├── "

/-- The display text of a line (colors are terminal styling, external
to the traversal logic): a symlink shows its resolved target, or the
literal placeholder when `read_link` failed. -/
def displayText (li : Line) : String :=
  match li.kind with
  | EKind.symlink (some t) => li.name ++ " -> " ++ t
  | EKind.symlink none => li.name ++ " -> " ++ "unreadable"
  | _ => li.name

/-- The full rendered line. -/
def renderLine (li : Line) : String :=
  (li.ancestors.foldl (fun s b => s ++ segString b) "") ++ connector li.isLast ++ displayText li

/-! ### Sorting (Rust `entries.sort_by_key(|e| e.file_name())`, a stable sort) -/

/-- Stable insertion of an entry by name: the new element passes
strictly smaller keys and stops before the first key not below it. -/
def insertByName (e : String × FSNode) : List (String × FSNode) → List (String × FSNode)
  | [] => [e]
  | f :: fs => if nameLt f.1 e.1 then f :: insertByName e fs else e :: f :: fs

/-- Stable sort of a directory listing by entry name. -/
def sortEntries : List (String × FSNode) → List (String × FSNode)
  | [] => []
  | e :: l => insertByName e (sortEntries l)

/-- Name-level stable insertion (for relating the sort to names only). -/
def insertName (s : String) : List String → List String
  | [] => [s]
  | f :: fs => if nameLt f s then f :: insertName s fs else s :: f :: fs

/-- Name-level stable sort: what the entry sort does to the names. -/
def sortNames : List String → List String
  | [] => []
  | s :: l => insertName s (sortNames l)

/-! ### Filtering (applied after sorting) -/

/-- The filter closure of `list_contents`: hidden-name check first
(short-circuiting), then the exclusion patterns — a pattern whose
string starts with `/` is matched against the full path, any other
against the base name. -/
def keepEntry (cfg : Opt) (pats : List GlobPat) (dirPath : String) (e : String × FSNode) : Bool :=
  let nm := e.1
  let path := pathJoin dirPath nm
  if !cfg.show_hidden && strStartsWith nm "." then false
  else if pats.any (fun p => if strStartsWith p.original "/" then globMatches p path else globMatches p nm) then false
  else true

/-- The depth guard: stop when `max_depth` is set and already reached
by the ancestor-prefix length. -/
def depthStop (cfg : Opt) (prefixes : List Bool) : Bool :=
  match cfg.max_depth with
  | some d => decide (d ≤ prefixes.length)
  | none => false

/-! ### The walker -/

/-- The loop body for a single visible entry, given the recursive call
`recur` for subdirectories.  A metadata failure skips the entry (it
still occupied a sibling position); a symlink renders with its target
and counts one file without recursing; a directory renders, counts one
directory, and recurses with the prefix extended by its own
last-sibling flag; a file renders as executable or regular and counts
one file. -/
def entryOut (recur : FSNode → String → List Bool → List Line × Stats)
    (dirPath : String) (prefixes : List Bool)
    (e : String × FSNode) (isLast : Bool) : List Line × Stats :=
  let nm := e.1
  let path := pathJoin dirPath nm
  match e.2 with
  | FSNode.metaErr => ([], Stats.zero)
  | FSNode.symlink t => ([⟨prefixes, isLast, nm, path, EKind.symlink t⟩], ⟨0, 1⟩)
  | FSNode.dir es =>
    let sub := recur (FSNode.dir es) path (prefixes ++ [isLast])
    (⟨prefixes, isLast, nm, path, EKind.dir⟩ :: sub.1, ⟨1 + sub.2.directories, sub.2.files⟩)
  | FSNode.file mode =>
    ([⟨prefixes, isLast, nm, path,
       if mode &&& 73 ≠ 0 then EKind.exec else EKind.regular⟩], ⟨0, 1⟩)

/-- Concatenate the output of one entry with the output of the rest. -/
def combineOut (a b : List Line × Stats) : List Line × Stats :=
  (a.1 ++ b.1, Stats.add a.2 b.2)

/-- The `for (i, entry)` loop over the filtered entries: an entry is
last exactly when no entry follows it in the visible list. -/
def walkEntries (recur : FSNode → String → List Bool → List Line × Stats)
    (dirPath : String) (prefixes : List Bool) :
    List (String × FSNode) → List Line × Stats
  | [] => ([], Stats.zero)
  | e :: rest =>
    combineOut (entryOut recur dirPath prefixes e rest.isEmpty)
      (walkEntries recur dirPath prefixes rest)

/-- The recursive walker `list_contents(dir, prefixes, opt, patterns)`.
Checks the depth guard, reads the directory (a failed read yields empty
output), sorts the entries by name, filters the sorted list, then runs
the rendering loop.  The fuel argument only bounds recursion depth;
see the stabilization result for its irrelevance. -/
def list_contents (cfg : Opt) (pats : List GlobPat) :
    Nat → FSNode → String → List Bool → List Line × Stats
  | 0, _, _, _ => ([], Stats.zero)
  | fuel + 1, node, dirPath, prefixes =>
    if depthStop cfg prefixes then ([], Stats.zero)
    else
      match node with
      | FSNode.dir (some entries) =>
        walkEntries (fun n d pr => list_contents cfg pats fuel n d pr) dirPath prefixes
          ((sortEntries entries).filter (keepEntry cfg pats dirPath))
      | _ => ([], Stats.zero)

/-! ### Pattern loading and the entry point -/

/-- `load_gitignore_patterns`: the optional list is the line content of
`root/.gitignore` (`none` when the file is absent or unopenable, and
unreadable lines are already dropped, as `lines().filter_map(Result::ok)`
does).  Keeps lines that are not blank after trimming and whose raw
first character is not `#`; a trimmed line starting with `/` is
stripped of its leading slashes and rebased onto the root path, any
other becomes a pattern of its trimmed text; patterns that fail to
compile are dropped. -/
def load_gitignore_patterns (rootPath : String) (content : Option (List String)) :
    Option (List GlobPat) :=
  match content with
  | none => none
  | some ls =>
    some (((ls.filter (fun l => !strIsEmpty (strTrim l) && !strStartsWith l "#")).filterMap
      (fun l =>
        let t := strTrim l
        if strStartsWith t "/" then globNew (pathJoin rootPath (dropSlashes t))
        else globNew t)))

/-- The pattern list `main` builds: the user's pipe-separated patterns
compiled individually (failures dropped), then the ignore-file patterns
unless disabled. -/
def mainPatterns (rootPath : String) (opt : Opt) (gitignore : Option (List String)) :
    List GlobPat :=
  (match opt.ignore with
   | some s => (splitPipe s).filterMap globNew
   | none => []) ++
  (if opt.no_gitignore then [] else (load_gitignore_patterns rootPath gitignore).getD [])

/-- The traversal `main` performs: build the patterns, then walk the
root with an empty ancestor prefix.  The returned pair is the rendered
entry lines and the summary statistics. -/
def runMain (fuel : Nat) (rootPath : String) (root : FSNode) (opt : Opt)
    (gitignore : Option (List String)) : List Line × Stats :=
  list_contents opt (mainPatterns rootPath opt gitignore) fuel root rootPath []

/-! ### Spec-side descriptions used by the claims -/

/-- Pair each element with its positional last-sibling flag: true
exactly when nothing follows it. -/
def withLastFlags : List α → List (α × Bool)
  | [] => []
  | a :: l => (a, l.isEmpty) :: withLastFlags l

/-- The lines a single directory level is expected to render for a
given visible (sorted-and-filtered) entry list: one line per entry
whose metadata is readable, carrying the positional last flag computed
against that visible list. -/
def expectedLevel (dirPath : String) (p : List Bool) (vis : List (String × FSNode)) : List Line :=
  (withLastFlags vis).filterMap (fun x =>
    match x.1.2 with
    | FSNode.metaErr => none
    | FSNode.symlink t => some ⟨p, x.2, x.1.1, pathJoin dirPath x.1.1, EKind.symlink t⟩
    | FSNode.dir _ => some ⟨p, x.2, x.1.1, pathJoin dirPath x.1.1, EKind.dir⟩
    | FSNode.file m => some ⟨p, x.2, x.1.1, pathJoin dirPath x.1.1,
        if m &&& 73 ≠ 0 then EKind.exec else EKind.regular⟩)

/-- Is this rendered line a directory line? -/
def isDirLine (li : Line) : Bool := li.kind == EKind.dir

/-- Is this rendered line a symbolic-link line? -/
def isSymlinkLine (li : Line) : Bool :=
  match li.kind with
  | EKind.symlink _ => true
  | _ => false

/-- What one ignore-file line contributes, as a single function of the
line: nothing for blank lines and for lines whose first raw character
is `#`; a pattern rebased onto the root for lines whose trimmed text
starts with `/`; a name-anchored pattern of the trimmed text otherwise. -/
def gitLine (rootPath : String) (l : String) : Option GlobPat :=
  if strIsEmpty (strTrim l) then none
  else if strStartsWith l "#" then none
  else
    let t := strTrim l
    if strStartsWith t "/" then globNew (pathJoin rootPath (dropSlashes t))
    else globNew t

/-- The rendering loop restricted to entries that are known not to be
last (everything left of a fixed later entry): each is processed with a
false last flag. -/
def walkNoLast (recur : FSNode → String → List Bool → List Line × Stats)
    (dirPath : String) (prefixes : List Bool) :
    List (String × FSNode) → List Line × Stats
  | [] => ([], Stats.zero)
  | e :: rest =>
    combineOut (entryOut recur dirPath prefixes e false)
      (walkNoLast recur dirPath prefixes rest)

/-! ### Concrete sample inputs for witnesses and counterexamples -/

/-- A root containing the chain a/b/c. -/
def depthTree : FSNode :=
  FSNode.dir (some [("a", FSNode.dir (some [("b", FSNode.dir (some [("c", FSNode.file 0)]))]))])

/-- A root with a top-level secret.txt and same-named files nested in
sub/ and sub/deep/. -/
def secretTree : FSNode :=
  FSNode.dir (some
    [("secret.txt", FSNode.file 0),
     ("sub", FSNode.dir (some
       [("deep", FSNode.dir (some [("secret.txt", FSNode.file 0)])),
        ("secret.txt", FSNode.file 0)]))])

/-- A root containing a single hidden file named .env. -/
def envTree : FSNode := FSNode.dir (some [(".env", FSNode.file 0)])

/-! ### Order lemmas for the sort -/

theorem char_eq_of_toNat_eq {a b : Char} (h : a.toNat = b.toNat) : a = b := by
  apply Char.ext
  apply UInt32.ext
  exact h

theorem charsLt_asymm : ∀ (a b : List Char), charsLt a b = true → charsLt b a = false := by
  intro a
  induction a with
  | nil =>
    intro b h
    cases b with
    | nil => simp [charsLt] at h
    | cons c cs => simp [charsLt]
  | cons x xs ih =>
    intro b h
    cases b with
    | nil => simp [charsLt] at h
    | cons y ys =>
      simp only [charsLt] at h ⊢
      by_cases h1 : x.toNat < y.toNat
      · have h2 : ¬ y.toNat < x.toNat := by omega
        simp [h1, h2]
      · by_cases h2 : y.toNat < x.toNat
        · simp [h1, h2] at h
        · simp only [h1, h2, if_false] at h ⊢
          exact ih ys h

theorem charsLt_connex : ∀ (a b : List Char),
    charsLt a b = false → charsLt b a = false → a = b := by
  intro a
  induction a with
  | nil =>
    intro b h1 _
    cases b with
    | nil => rfl
    | cons c cs => simp [charsLt] at h1
  | cons x xs ih =>
    intro b h1 h2
    cases b with
    | nil => simp [charsLt] at h2
    | cons y ys =>
      simp only [charsLt] at h1 h2
      by_cases hxy : x.toNat < y.toNat
      · simp [hxy] at h1
      · by_cases hyx : y.toNat < x.toNat
        · simp [hxy, hyx] at h2
        · have hx : x = y := char_eq_of_toNat_eq (by omega)
          subst hx
          simp only [hxy, hyx, if_false] at h1 h2
          rw [ih ys h1 h2]

theorem charsLt_trans : ∀ (a b c : List Char),
    charsLt a b = true → charsLt b c = true → charsLt a c = true := by
  intro a
  induction a with
  | nil =>
    intro b c h1 h2
    cases b with
    | nil => simp [charsLt] at h1
    | cons y ys =>
      cases c with
      | nil => simp [charsLt] at h2
      | cons z zs => simp [charsLt]
  | cons x xs ih =>
    intro b c h1 h2
    cases b with
    | nil => simp [charsLt] at h1
    | cons y ys =>
      cases c with
      | nil => simp [charsLt] at h2
      | cons z zs =>
        simp only [charsLt] at h1 h2 ⊢
        by_cases hxy : x.toNat < y.toNat
        · by_cases hyz : y.toNat < z.toNat
          · have : x.toNat < z.toNat := by omega
            simp [this]
          · by_cases hzy : z.toNat < y.toNat
            · simp [hyz, hzy] at h2
            · have hy : y.toNat = z.toNat := by omega
              have : x.toNat < z.toNat := by omega
              simp [this]
        · by_cases hyx : y.toNat < x.toNat
          · simp [hxy, hyx] at h1
          · have hx : x.toNat = y.toNat := by omega
            by_cases hyz : y.toNat < z.toNat
            · have : x.toNat < z.toNat := by omega
              simp [this]
            · by_cases hzy : z.toNat < y.toNat
              · simp [hyz, hzy] at h2
              · have hxz : ¬ x.toNat < z.toNat := by omega
                have hzx : ¬ z.toNat < x.toNat := by omega
                simp only [hxy, hyx, if_false] at h1
                simp only [hyz, hzy, if_false] at h2
                simp only [hxz, hzx, if_false]
                exact ih ys zs h1 h2

theorem charsLt_neg_trans {e f x : List Char}
    (h1 : charsLt f e = false) (h2 : charsLt x f = false) : charsLt x e = false := by
  by_cases hxe : charsLt x e = true
  · by_cases hef : charsLt e f = true
    · have := charsLt_trans x e f hxe hef
      rw [this] at h2
      simp at h2
    · have heq : e = f := charsLt_connex e f (by revert hef; cases charsLt e f <;> simp) h1
      subst heq
      rw [hxe] at h2
      simp at h2
  · revert hxe
    cases charsLt x e <;> simp

/-! ### Sorting lemmas -/

theorem perm_insertByName (e : String × FSNode) :
    ∀ l, (insertByName e l).Perm (e :: l) := by
  intro l
  induction l with
  | nil => simp [insertByName]
  | cons f fs ih =>
    simp only [insertByName]
    by_cases h : nameLt f.1 e.1
    · simp only [h, if_true]
      exact (ih.cons f).trans (List.Perm.swap e f fs)
    · simp [h]

theorem perm_sortEntries : ∀ l, (sortEntries l).Perm l := by
  intro l
  induction l with
  | nil => simp [sortEntries]
  | cons e l ih =>
    exact (perm_insertByName e (sortEntries l)).trans (ih.cons e)

theorem mem_sortEntries {e : String × FSNode} {l : List (String × FSNode)} :
    e ∈ sortEntries l ↔ e ∈ l := (perm_sortEntries l).mem_iff

theorem pairwise_insertByName (e : String × FSNode) (l : List (String × FSNode))
    (h : l.Pairwise (fun a b => nameLe a.1 b.1 = true)) :
    (insertByName e l).Pairwise (fun a b => nameLe a.1 b.1 = true) := by
  induction l with
  | nil => simp [insertByName]
  | cons f fs ih =>
    simp only [insertByName]
    rcases List.pairwise_cons.mp h with ⟨hf, hfs⟩
    by_cases hlt : nameLt f.1 e.1
    · simp only [hlt, if_true]
      apply List.pairwise_cons.mpr
      refine ⟨?_, ih hfs⟩
      intro x hx
      rcases List.mem_cons.mp ((perm_insertByName e fs).mem_iff.mp hx) with hx1 | hx2
      · subst hx1
        simp only [nameLe]
        rw [charsLt_asymm _ _ hlt]
        rfl
      · exact hf x hx2
    · simp only [hlt, if_false]
      apply List.pairwise_cons.mpr
      constructor
      · intro x hx
        have hfe : charsLt f.1.data e.1.data = false := by
          revert hlt
          simp only [nameLt]
          cases charsLt f.1.data e.1.data <;> simp
        rcases List.mem_cons.mp hx with hx1 | hx2
        · subst hx1
          simp only [nameLe, hfe]
          rfl
        · have hxf : charsLt x.1.data f.1.data = false := by
            have := hf x hx2
            simp only [nameLe] at this
            revert this
            cases charsLt x.1.data f.1.data <;> simp
          simp only [nameLe, charsLt_neg_trans hfe hxf]
          rfl
      · exact h

theorem pairwise_sortEntries : ∀ l,
    (sortEntries l).Pairwise (fun (a b : String × FSNode) => nameLe a.1 b.1 = true) := by
  intro l
  induction l with
  | nil => simp [sortEntries]
  | cons e l ih => exact pairwise_insertByName e (sortEntries l) ih

theorem map_fst_insertByName (e : String × FSNode) :
    ∀ l, (insertByName e l).map Prod.fst = insertName e.1 (l.map Prod.fst) := by
  intro l
  induction l with
  | nil => simp [insertByName, insertName]
  | cons f fs ih =>
    simp only [insertByName, insertName, List.map_cons]
    by_cases h : nameLt f.1 e.1
    · simp [h, ih]
    · simp [h]

theorem map_fst_sortEntries : ∀ l,
    (sortEntries l).map Prod.fst = sortNames (l.map Prod.fst) := by
  intro l
  induction l with
  | nil => simp [sortEntries, sortNames]
  | cons e l ih =>
    simp only [sortEntries, sortNames, List.map_cons]
    rw [map_fst_insertByName, ih]

/-! ### Walker lemmas -/

theorem combineOut_zero (b : List Line × Stats) : combineOut ([], Stats.zero) b = b := by
  obtain ⟨l, s⟩ := b
  obtain ⟨sd, sf⟩ := s
  simp [combineOut, Stats.add, Stats.zero]

/-- Every line produced by the rendering loop is either a line of the
current level (with a visible, metadata-readable source entry) or a
line of one of the recursive calls, which are made exactly at the
prefix extended by one flag. -/
theorem walk_mem (recur : FSNode → String → List Bool → List Line × Stats)
    (dp : String) (p : List Bool) :
    ∀ (l : List (String × FSNode)) (li : Line), li ∈ (walkEntries recur dp p l).1 →
      (li.ancestors = p ∧ ∃ e ∈ l, li.name = e.1 ∧ e.2.isMetaErr = false) ∨
      (∃ n d2 b, li ∈ (recur n d2 (p ++ [b])).1) := by
  intro l
  induction l with
  | nil =>
    intro li h
    simp [walkEntries] at h
  | cons f rest ih =>
    intro li h
    obtain ⟨nm, child⟩ := f
    simp only [walkEntries, combineOut] at h
    rcases List.mem_append.mp h with h1 | h2
    · cases child with
      | metaErr => simp [entryOut] at h1
      | symlink t =>
        simp only [entryOut, List.mem_singleton] at h1
        subst h1
        exact Or.inl ⟨rfl, (nm, FSNode.symlink t), List.mem_cons_self _ _, rfl, rfl⟩
      | dir es =>
        simp only [entryOut] at h1
        rcases List.mem_cons.mp h1 with h1a | h1b
        · subst h1a
          exact Or.inl ⟨rfl, (nm, FSNode.dir es), List.mem_cons_self _ _, rfl, rfl⟩
        · exact Or.inr ⟨FSNode.dir es, pathJoin dp nm, rest.isEmpty, h1b⟩
      | file m =>
        simp only [entryOut, List.mem_singleton] at h1
        subst h1
        exact Or.inl ⟨rfl, (nm, FSNode.file m), List.mem_cons_self _ _, rfl, rfl⟩
    · rcases ih li h2 with ⟨ha, e, he, hrest⟩ | hr
      · exact Or.inl ⟨ha, e, List.mem_cons_of_mem _ he, hrest⟩
      · exact Or.inr hr

/-- Ancestor lists of rendered lines never get shorter than the prefix
of the call that produced them. -/
theorem lc_depth (cfg : Opt) (pats : List GlobPat) : ∀ (fuel : Nat) (node : FSNode)
    (dp : String) (p : List Bool) (li : Line),
    li ∈ (list_contents cfg pats fuel node dp p).1 → p.length ≤ li.ancestors.length := by
  intro fuel
  induction fuel with
  | zero =>
    intro node dp p li h
    simp [list_contents] at h
  | succ f ih =>
    intro node dp p li h
    simp only [list_contents] at h
    by_cases hg : depthStop cfg p = true
    · simp [hg] at h
    · rw [if_neg hg] at h
      cases node with
      | dir es =>
        cases es with
        | none => simp at h
        | some entries =>
          rcases walk_mem _ dp p _ li h with ⟨ha, _⟩ | ⟨n, d2, b, hb⟩
          · exact le_of_eq (by rw [ha])
          · have := ih n d2 (p ++ [b]) li hb
            simp only [List.length_append, List.length_cons, List.length_nil] at this
            omega
      | file m => simp at h
      | symlink t => simp at h
      | metaErr => simp at h

/-- The lines of the current level (ancestors exactly the current
prefix) are precisely the expected lines of the processed list, with
positional last flags. -/
theorem walk_level (recur : FSNode → String → List Bool → List Line × Stats)
    (dp : String) (p : List Bool)
    (hrec : ∀ n d2 b li, li ∈ (recur n d2 (p ++ [b])).1 → li.ancestors ≠ p) :
    ∀ l, ((walkEntries recur dp p l).1.filter (fun li => decide (li.ancestors = p)))
      = expectedLevel dp p l := by
  intro l
  induction l with
  | nil => simp [walkEntries, expectedLevel, withLastFlags]
  | cons f rest ih =>
    obtain ⟨nm, child⟩ := f
    simp only [walkEntries, combineOut, List.filter_append]
    rw [ih]
    cases child with
    | metaErr => simp [entryOut, expectedLevel, withLastFlags]
    | symlink t => simp [entryOut, expectedLevel, withLastFlags, List.filter_cons]
    | dir es =>
      have hsub : ((recur (FSNode.dir es) (pathJoin dp nm) (p ++ [rest.isEmpty])).1.filter
          (fun li => decide (li.ancestors = p))) = [] := by
        apply List.filter_eq_nil_iff.mpr
        intro a ha
        simp only [decide_eq_true_eq]
        exact hrec _ _ _ a ha
      simp [entryOut, expectedLevel, withLastFlags, List.filter_cons, hsub]
    | file m => simp [entryOut, expectedLevel, withLastFlags, List.filter_cons]

/-- The counters are consistent with the rendered lines: directory
lines count into `directories`, every other line into `files`. -/
theorem walk_stats (recur : FSNode → String → List Bool → List Line × Stats)
    (dp : String) (p : List Bool)
    (hrec : ∀ n d2 pr, (recur n d2 pr).2.directories = (recur n d2 pr).1.countP isDirLine ∧
        (recur n d2 pr).2.files = (recur n d2 pr).1.countP (fun li => !isDirLine li)) :
    ∀ l, (walkEntries recur dp p l).2.directories
        = (walkEntries recur dp p l).1.countP isDirLine ∧
      (walkEntries recur dp p l).2.files
        = (walkEntries recur dp p l).1.countP (fun li => !isDirLine li) := by
  intro l
  induction l with
  | nil => simp [walkEntries, Stats.zero]
  | cons f rest ih =>
    obtain ⟨nm, child⟩ := f
    obtain ⟨ih1, ih2⟩ := ih
    simp only [walkEntries, combineOut, List.countP_append, Stats.add]
    cases child with
    | metaErr =>
      constructor <;> simp [entryOut, Stats.zero, ih1, ih2]
    | symlink t =>
      constructor <;> simp [entryOut, isDirLine, List.countP_cons, ih1, ih2]
    | dir es =>
      obtain ⟨h1, h2⟩ := hrec (FSNode.dir es) (pathJoin dp nm) (p ++ [rest.isEmpty])
      constructor
      · simp only [entryOut, List.countP_cons, List.countP_append]
        simp [isDirLine, h1, ih1]
        omega
      · simp only [entryOut, List.countP_cons, List.countP_append]
        simp [isDirLine, h2, ih2]
    | file m =>
      by_cases hm : m &&& 73 ≠ 0 <;>
        constructor <;>
          simp [entryOut, isDirLine, List.countP_cons, ih1, ih2, hm]

/-- Counting a predicate and its negation covers the whole list. -/
theorem countP_not_add (l : List α) (q : α → Bool) :
    l.countP q + l.countP (fun a => !q a) = l.length := by
  induction l with
  | nil => simp
  | cons a l ih =>
    by_cases h : q a = true <;> simp [List.countP_cons, h] <;> omega

/-- Line/counter consistency for the whole walk. -/
theorem lc_stats (cfg : Opt) (pats : List GlobPat) : ∀ (fuel : Nat) (node : FSNode)
    (dp : String) (p : List Bool),
    (list_contents cfg pats fuel node dp p).2.directories
      = (list_contents cfg pats fuel node dp p).1.countP isDirLine ∧
    (list_contents cfg pats fuel node dp p).2.files
      = (list_contents cfg pats fuel node dp p).1.countP (fun li => !isDirLine li) := by
  intro fuel
  induction fuel with
  | zero => intro node dp p; simp [list_contents, Stats.zero]
  | succ f ih =>
    intro node dp p
    simp only [list_contents]
    by_cases hg : depthStop cfg p = true
    · simp [hg, Stats.zero]
    · rw [if_neg hg]
      cases node with
      | dir es =>
        cases es with
        | none => simp [Stats.zero]
        | some entries =>
          exact walk_stats _ dp p (fun n d2 pr => ih n d2 pr) _
      | file m => simp [Stats.zero]
      | symlink t => simp [Stats.zero]
      | metaErr => simp [Stats.zero]

/-- Every visible entry with readable metadata contributes a line that
carries its name. -/
theorem walk_exists (recur : FSNode → String → List Bool → List Line × Stats)
    (dp : String) (p : List Bool) :
    ∀ (l : List (String × FSNode)) (e : String × FSNode), e ∈ l → e.2.isMetaErr = false →
      ∃ li ∈ (walkEntries recur dp p l).1, li.name = e.1 := by
  intro l
  induction l with
  | nil =>
    intro e he
    simp at he
  | cons f rest ih =>
    intro e he hme
    rcases List.mem_cons.mp he with he1 | he2
    · obtain ⟨nm, child⟩ := f
      subst he1
      cases child with
      | metaErr => simp [FSNode.isMetaErr] at hme
      | symlink t =>
        refine ⟨⟨p, rest.isEmpty, nm, pathJoin dp nm, EKind.symlink t⟩, ?_, rfl⟩
        simp [walkEntries, entryOut, combineOut]
      | dir es =>
        refine ⟨⟨p, rest.isEmpty, nm, pathJoin dp nm, EKind.dir⟩, ?_, rfl⟩
        simp [walkEntries, entryOut, combineOut]
      | file m =>
        refine ⟨⟨p, rest.isEmpty, nm, pathJoin dp nm,
          if m &&& 73 ≠ 0 then EKind.exec else EKind.regular⟩, ?_, rfl⟩
        simp [walkEntries, entryOut, combineOut]
    · obtain ⟨li, hli, hname⟩ := ih e he2 hme
      refine ⟨li, ?_, hname⟩
      simp only [walkEntries, combineOut]
      exact List.mem_append_right _ hli

/-- The loop output depends on the recursive call only at the
one-longer prefixes it actually passes. -/
theorem walk_congr (r1 r2 : FSNode → String → List Bool → List Line × Stats)
    (dp : String) (p : List Bool)
    (h : ∀ n d2 b, r1 n d2 (p ++ [b]) = r2 n d2 (p ++ [b])) :
    ∀ l, walkEntries r1 dp p l = walkEntries r2 dp p l := by
  intro l
  induction l with
  | nil => rfl
  | cons f rest ih =>
    obtain ⟨nm, child⟩ := f
    simp only [walkEntries, ih]
    congr 1
    cases child with
    | dir es => simp [entryOut, h]
    | metaErr => rfl
    | symlink t => rfl
    | file m => rfl

/-- The depth guard: a reached depth limit yields empty output at any
fuel, without reading the directory. -/
theorem lc_guard (cfg : Opt) (pats : List GlobPat) (d : Nat) (hd : cfg.max_depth = some d) :
    ∀ (fuel : Nat) (node : FSNode) (dp : String) (p : List Bool), d ≤ p.length →
      list_contents cfg pats fuel node dp p = ([], Stats.zero) := by
  intro fuel node dp p hlen
  cases fuel with
  | zero => rfl
  | succ f =>
    have hg : depthStop cfg p = true := by
      simp [depthStop, hd, hlen]
    simp [list_contents, hg]

/-- Stabilization: the walk needs recursion depth at most
`max_depth - prefix length`; any fuel at least that large gives the
same result, so the recursion is bounded by the depth limit. -/
theorem lc_stab (cfg : Opt) (pats : List GlobPat) (d : Nat) (hd : cfg.max_depth = some d) :
    ∀ (fuel : Nat) (node : FSNode) (dp : String) (p : List Bool), d - p.length ≤ fuel →
      list_contents cfg pats fuel node dp p
        = list_contents cfg pats (d - p.length) node dp p := by
  intro fuel
  induction fuel with
  | zero =>
    intro node dp p h
    have h0 : d - p.length = 0 := Nat.le_zero.mp h
    rw [h0]
  | succ f ih =>
    intro node dp p h
    by_cases hdp : d ≤ p.length
    · have h0 : d - p.length = 0 := by omega
      rw [h0, lc_guard cfg pats d hd (f + 1) node dp p hdp]
      rfl
    · have hk : d - p.length = (d - (p.length + 1)) + 1 := by omega
      rw [hk]
      have hg : depthStop cfg p = true ↔ False := by
        simp [depthStop, hd]
        omega
      simp only [list_contents]
      rw [if_neg (by simp [hg]), if_neg (by simp [hg])]
      cases node with
      | dir es =>
        cases es with
        | none => rfl
        | some entries =>
          apply walk_congr
          intro n d2 b
          have hlen : (p ++ [b]).length = p.length + 1 := by simp
          have h1 := ih n d2 (p ++ [b]) (by rw [hlen]; omega)
          rw [h1, hlen]
      | file m => rfl
      | symlink t => rfl
      | metaErr => rfl

/-- With a depth limit `d`, every rendered line sits at depth below
`d`: recursion never escapes the limit. -/
theorem lc_bound (cfg : Opt) (pats : List GlobPat) (d : Nat) (hd : cfg.max_depth = some d) :
    ∀ (fuel : Nat) (node : FSNode) (dp : String) (p : List Bool) (li : Line),
      li ∈ (list_contents cfg pats fuel node dp p).1 → li.ancestors.length < d := by
  intro fuel
  induction fuel with
  | zero =>
    intro node dp p li h
    simp [list_contents] at h
  | succ f ih =>
    intro node dp p li h
    simp only [list_contents] at h
    by_cases hg : depthStop cfg p = true
    · simp [hg] at h
    · have hpd : p.length < d := by
        simp [depthStop, hd] at hg
        omega
      rw [if_neg hg] at h
      cases node with
      | dir es =>
        cases es with
        | none => simp at h
        | some entries =>
          rcases walk_mem _ dp p _ li h with ⟨ha, _⟩ | ⟨n, d2, b, hb⟩
          · rw [ha]; exact hpd
          · exact ih n d2 (p ++ [b]) li hb
      | file m => simp at h
      | symlink t => simp at h
      | metaErr => simp at h

/-- A kept entry cannot be hidden-named while hidden files are off. -/
theorem keep_not_hidden (cfg : Opt) (pats : List GlobPat) (dp : String)
    (e : String × FSNode) (hsh : cfg.show_hidden = false)
    (hk : keepEntry cfg pats dp e = true) : strStartsWith e.1 "." = false := by
  by_cases hst : strStartsWith e.1 "." = true
  · simp [keepEntry, hsh, hst] at hk
  · revert hst
    cases strStartsWith e.1 "." <;> simp

/-- With hidden files off, no rendered line at any depth carries a
dot-initial name. -/
theorem lc_hidden (cfg : Opt) (pats : List GlobPat) (hsh : cfg.show_hidden = false) :
    ∀ (fuel : Nat) (node : FSNode) (dp : String) (p : List Bool) (li : Line),
      li ∈ (list_contents cfg pats fuel node dp p).1 → strStartsWith li.name "." = false := by
  intro fuel
  induction fuel with
  | zero =>
    intro node dp p li h
    simp [list_contents] at h
  | succ f ih =>
    intro node dp p li h
    simp only [list_contents] at h
    by_cases hg : depthStop cfg p = true
    · simp [hg] at h
    · rw [if_neg hg] at h
      cases node with
      | dir es =>
        cases es with
        | none => simp at h
        | some entries =>
          rcases walk_mem _ dp p _ li h with ⟨_, e, he, hname, _⟩ | ⟨n, d2, b, hb⟩
          · have hkeep : keepEntry cfg pats dp e = true := (List.mem_filter.mp he).2
            rw [hname]
            exact keep_not_hidden cfg pats dp e hsh hkeep
          · exact ih n d2 (p ++ [b]) li hb
      | file m => simp at h
      | symlink t => simp at h
      | metaErr => simp at h

/-! ### Pattern-loading lemmas -/

/-- A compiled pattern keeps the string it was compiled from. -/
theorem globNew_original (s : String) (q : GlobPat) (h : globNew s = some q) :
    q.original = s := by
  simp only [globNew] at h
  cases hp : parseToks (s.data.length + 1) true s.data with
  | none => rw [hp] at h; simp at h
  | some ts =>
    rw [hp] at h
    have hq : ({ original := s, toks := ts } : GlobPat) = q := by simpa using h
    rw [← hq]

/-- The gitignore loader is the per-line contribution function mapped
over the lines. -/
theorem gitignore_chars (rootPath : String) : ∀ ls : List String,
    load_gitignore_patterns rootPath (some ls) = some (ls.filterMap (gitLine rootPath)) := by
  intro ls
  simp only [load_gitignore_patterns]
  congr 1
  induction ls with
  | nil => rfl
  | cons l ls ih =>
    simp only [List.filter_cons]
    by_cases h1 : strIsEmpty (strTrim l) = true
    · simp [h1, gitLine, List.filterMap_cons, ih]
    · by_cases h2 : strStartsWith l "#" = true
      · simp [h1, h2, gitLine, List.filterMap_cons, ih]
      · simp only [h1, h2, Bool.not_false, Bool.not_true, Bool.and_self, Bool.and_false,
          Bool.and_true, if_true, if_false]
        simp [List.filterMap_cons, gitLine, h1, h2, ih]

/-! ### Structure of the loop around a fixed entry -/

theorem combineOut_assoc (a b c : List Line × Stats) :
    combineOut (combineOut a b) c = combineOut a (combineOut b c) := by
  simp [combineOut, Stats.add, List.append_assoc, Nat.add_assoc]

theorem walk_append (recur : FSNode → String → List Bool → List Line × Stats)
    (dp : String) (p : List Bool) (e : String × FSNode) :
    ∀ l1 l2, walkEntries recur dp p (l1 ++ e :: l2)
      = combineOut (walkNoLast recur dp p l1) (walkEntries recur dp p (e :: l2)) := by
  intro l1
  induction l1 with
  | nil =>
    intro l2
    rw [List.nil_append]
    exact (combineOut_zero _).symm
  | cons f l1 ih =>
    intro l2
    have hne : (l1 ++ e :: l2).isEmpty = false := by
      cases l1 <;> simp
    simp only [List.cons_append, walkEntries, walkNoLast, List.append_eq, hne, ih,
      combineOut_assoc]

/-! ### The claims -/

/-- Claim C1: for every directory the walker reads, entries are first
sorted by name under a byte/codepoint-stable total ordering with
directories and files interleaved (the sort is a permutation, is
ordered under the name order, and depends on the names only), and only
afterwards filtered (hidden-name check first and short-circuiting,
then exclusion patterns); the last-sibling flag of each rendered entry
is computed against the filtered visible set, not the raw listing. -/
theorem claim1_sort_then_filter (cfg : Opt) (pats : List GlobPat) (fuel : Nat)
    (dp : String) (p : List Bool) (entries : List (String × FSNode))
    (hg : depthStop cfg p = false) :
    (sortEntries entries).Perm entries ∧
    (sortEntries entries).Pairwise (fun a b => nameLe a.1 b.1 = true) ∧
    (sortEntries entries).map Prod.fst = sortNames (entries.map Prod.fst) ∧
    (∀ e : String × FSNode, (!cfg.show_hidden && strStartsWith e.1 ".") = true →
      keepEntry cfg pats dp e = false) ∧
    ((list_contents cfg pats (fuel + 1) (FSNode.dir (some entries)) dp p).1.filter
        (fun li => decide (li.ancestors = p)))
      = expectedLevel dp p ((sortEntries entries).filter (keepEntry cfg pats dp)) := by
  refine ⟨perm_sortEntries entries, pairwise_sortEntries entries,
    map_fst_sortEntries entries, ?_, ?_⟩
  · intro e he
    simp [keepEntry, he]
  · simp only [list_contents]
    rw [if_neg (by simp [hg])]
    apply walk_level
    intro n d2 b li hli
    have hlen := lc_depth cfg pats fuel n d2 (p ++ [b]) li hli
    simp only [List.length_append, List.length_cons, List.length_nil] at hlen
    intro hcon
    rw [hcon] at hlen
    omega

/-- Witness for claim C1 at a concrete two-entry directory in which the
raw listing is unsorted and one entry is a directory. -/
theorem claim1_witness :
    (sortEntries [("b", FSNode.file 0), ("a", FSNode.dir (some []))]).Perm
        [("b", FSNode.file 0), ("a", FSNode.dir (some []))] ∧
    (sortEntries [("b", FSNode.file 0), ("a", FSNode.dir (some []))]).Pairwise
        (fun a b => nameLe a.1 b.1 = true) ∧
    (sortEntries [("b", FSNode.file 0), ("a", FSNode.dir (some []))]).map Prod.fst
      = sortNames ([("b", FSNode.file 0), ("a", FSNode.dir (some []))].map Prod.fst) ∧
    (∀ e : String × FSNode,
      (!(⟨none, false, false, none, true⟩ : Opt).show_hidden && strStartsWith e.1 ".") = true →
      keepEntry ⟨none, false, false, none, true⟩ [] "/r" e = false) ∧
    ((list_contents ⟨none, false, false, none, true⟩ [] (0 + 1)
        (FSNode.dir (some [("b", FSNode.file 0), ("a", FSNode.dir (some []))])) "/r" []).1.filter
        (fun li => decide (li.ancestors = [])))
      = expectedLevel "/r" []
          ((sortEntries [("b", FSNode.file 0), ("a", FSNode.dir (some []))]).filter
            (keepEntry ⟨none, false, false, none, true⟩ [] "/r")) :=
  claim1_sort_then_filter ⟨none, false, false, none, true⟩ [] 0 "/r" []
    [("b", FSNode.file 0), ("a", FSNode.dir (some []))] (by decide)

/-- Claim C2: with `max_depth` set, a walk whose ancestor-prefix length
has reached the limit returns empty Stats immediately, at any fuel; and
with `max_depth = 1` on a root containing a/b/c, entry a is listed but
b is not. -/
theorem claim2_depth_guard :
    (∀ (cfg : Opt) (pats : List GlobPat) (fuel : Nat) (node : FSNode) (dp : String)
        (p : List Bool) (d : Nat), cfg.max_depth = some d → d ≤ p.length →
        list_contents cfg pats fuel node dp p = ([], Stats.zero)) ∧
    ((runMain 10 "/t" depthTree ⟨some 1, false, false, none, true⟩ none).1.map Line.name
      = ["a"]) ∧
    (∀ li ∈ (runMain 10 "/t" depthTree ⟨some 1, false, false, none, true⟩ none).1,
      li.name ≠ "b") := by
  refine ⟨?_, by decide, by decide⟩
  intro cfg pats fuel node dp p d hd hlen
  exact lc_guard cfg pats d hd fuel node dp p hlen

/-- Witness for claim C2: at depth limit 1 with one ancestor level the
walk is empty. -/
theorem claim2_witness :
    list_contents ⟨some 1, false, false, none, true⟩ [] 3 depthTree "/t" [true]
      = ([], Stats.zero) :=
  claim2_depth_guard.1 ⟨some 1, false, false, none, true⟩ [] 3 depthTree "/t" [true] 1 rfl
    (by decide)

/-- Claim C5: a visited symbolic-link entry renders exactly one line
showing its name with the resolved target (or the literal placeholder
when the target was unreadable), increments the file counter by exactly
one, never invokes the recursive call (so never recurses into the
target, whatever it is), and receives the ordinary positional
last-sibling flag of a leaf. -/
theorem claim5_symlink (recur r2 : FSNode → String → List Bool → List Line × Stats)
    (dp : String) (p : List Bool) (nm : String) (t : Option String) (b : Bool) :
    entryOut recur dp p (nm, FSNode.symlink t) b
      = ([⟨p, b, nm, pathJoin dp nm, EKind.symlink t⟩], ⟨0, 1⟩) ∧
    entryOut recur dp p (nm, FSNode.symlink t) b = entryOut r2 dp p (nm, FSNode.symlink t) b ∧
    displayText ⟨p, b, nm, pathJoin dp nm, EKind.symlink t⟩
      = nm ++ " -> " ++ (match t with | some s => s | none => "unreadable") ∧
    (∀ l1 l2, walkEntries recur dp p (l1 ++ (nm, FSNode.symlink t) :: l2)
      = combineOut (walkNoLast recur dp p l1)
          (combineOut ([⟨p, l2.isEmpty, nm, pathJoin dp nm, EKind.symlink t⟩], ⟨0, 1⟩)
            (walkEntries recur dp p l2))) := by
  refine ⟨rfl, rfl, ?_, ?_⟩
  · cases t <;> rfl
  · intro l1 l2
    rw [walk_append]
    rfl

/-- Claim C6 (amended): the summary counters are consistent with the
rendered lines — `directories` counts exactly the directory lines,
`files` every other line, and their sum is the total number of
rendered entry lines. -/
theorem claim6_counter_consistency (cfg : Opt) (pats : List GlobPat) (fuel : Nat)
    (node : FSNode) (dp : String) (p : List Bool) :
    (list_contents cfg pats fuel node dp p).2.directories
      = (list_contents cfg pats fuel node dp p).1.countP isDirLine ∧
    (list_contents cfg pats fuel node dp p).2.files
      = (list_contents cfg pats fuel node dp p).1.countP (fun li => !isDirLine li) ∧
    (list_contents cfg pats fuel node dp p).2.directories
        + (list_contents cfg pats fuel node dp p).2.files
      = (list_contents cfg pats fuel node dp p).1.length := by
  obtain ⟨h1, h2⟩ := lc_stats cfg pats fuel node dp p
  refine ⟨h1, h2, ?_⟩
  rw [h1, h2]
  exact countP_not_add _ _

/-- Counterexample to claim C6 as stated: on a root containing a single
symbolic link, directories + files is 1, while the number of rendered
non-symlink lines plus the number of directory lines is 0. -/
theorem claim6_counterexample :
    ((list_contents ⟨none, false, false, none, true⟩ [] 2
        (FSNode.dir (some [("s", FSNode.symlink (some "t"))])) "/r" []).2.directories
      + (list_contents ⟨none, false, false, none, true⟩ [] 2
        (FSNode.dir (some [("s", FSNode.symlink (some "t"))])) "/r" []).2.files = 1) ∧
    ((list_contents ⟨none, false, false, none, true⟩ [] 2
        (FSNode.dir (some [("s", FSNode.symlink (some "t"))])) "/r" []).1.countP
        (fun li => !isSymlinkLine li)
      + (list_contents ⟨none, false, false, none, true⟩ [] 2
        (FSNode.dir (some [("s", FSNode.symlink (some "t"))])) "/r" []).1.countP isDirLine
      = 0) := by
  refine ⟨by decide, by decide⟩

/-- Counterexample to claim C3 as stated: the user pattern /secret.txt
under root /r keeps its original string (it is not rebased to
/r/secret.txt), and the root-level secret.txt is therefore still
rendered — whereas the rebased pattern would match its full path. -/
theorem claim3_counterexample :
    ((mainPatterns "/r" ⟨none, false, false, some "/secret.txt", true⟩ none).map
        GlobPat.original = ["/secret.txt"]) ∧
    "/secret.txt" ≠ pathJoin "/r" (dropSlashes "/secret.txt") ∧
    ((runMain 5 "/r" (FSNode.dir (some [("secret.txt", FSNode.file 0)]))
        ⟨none, false, false, some "/secret.txt", true⟩ none).1.map Line.name
      = ["secret.txt"]) ∧
    ((globNew (pathJoin "/r" (dropSlashes "/secret.txt"))).map
        (fun q => globMatches q (pathJoin "/r" "secret.txt"))) = some true := by
  refine ⟨by decide, by decide, by decide, by decide⟩

/-- Claim C3 (amended): an ignore-file line beginning (after trimming)
with `/` has its leading slashes stripped and is rebased onto the
traversal root; user patterns are compiled verbatim and never rebased;
at match time a pattern whose string begins with `/` is matched
against the entry's full path and any other pattern against the base
name only (so a rebased ignore-file pattern is path-matched exactly
when the traversal root makes its string begin with `/`). -/
theorem claim3_anchoring (rootPath : String) :
    (∀ l : String, strIsEmpty (strTrim l) = false → strStartsWith l "#" = false →
      strStartsWith (strTrim l) "/" = true →
      load_gitignore_patterns rootPath (some [l])
        = some (globNew (pathJoin rootPath (dropSlashes (strTrim l)))).toList) ∧
    (∀ s : String, ∀ q ∈ (splitPipe s).filterMap globNew, q.original ∈ splitPipe s) ∧
    (∀ (opt : Opt) (git : Option (List String)) (s : String), opt.ignore = some s →
      mainPatterns rootPath opt git
        = (splitPipe s).filterMap globNew
          ++ (if opt.no_gitignore then []
              else (load_gitignore_patterns rootPath git).getD [])) ∧
    (∀ (cfg : Opt) (pats : List GlobPat) (dp : String) (e : String × FSNode) (q : GlobPat),
      q ∈ pats → strStartsWith q.original "/" = true →
      globMatches q (pathJoin dp e.1) = true → keepEntry cfg pats dp e = false) ∧
    (∀ (cfg : Opt) (pats : List GlobPat) (dp : String) (e : String × FSNode) (q : GlobPat),
      q ∈ pats → strStartsWith q.original "/" = false →
      globMatches q e.1 = true → keepEntry cfg pats dp e = false) := by
  refine ⟨?_, ?_, ?_, ?_, ?_⟩
  · intro l h1 h2 h3
    rw [gitignore_chars]
    congr 1
    simp only [List.filterMap_cons, List.filterMap_nil, gitLine, h1, h2, h3, if_true,
      if_false, Bool.false_eq_true]
    cases globNew (pathJoin rootPath (dropSlashes (strTrim l))) <;> simp
  · intro s q hq
    obtain ⟨a, ha, hga⟩ := List.mem_filterMap.mp hq
    rw [globNew_original a q hga]
    exact ha
  · intro opt git s hs
    simp [mainPatterns, hs]
  · intro cfg pats dp e q hq hstart hmatch
    simp only [keepEntry]
    by_cases hh : (!cfg.show_hidden && strStartsWith e.1 ".") = true
    · simp [hh]
    · have hany : pats.any (fun pt =>
          if strStartsWith pt.original "/" then globMatches pt (pathJoin dp e.1)
          else globMatches pt e.1) = true :=
        List.any_eq_true.mpr ⟨q, hq, by simp [hstart, hmatch]⟩
      simp [hh, hany]
  · intro cfg pats dp e q hq hstart hmatch
    simp only [keepEntry]
    by_cases hh : (!cfg.show_hidden && strStartsWith e.1 ".") = true
    · simp [hh]
    · have hany : pats.any (fun pt =>
          if strStartsWith pt.original "/" then globMatches pt (pathJoin dp e.1)
          else globMatches pt e.1) = true :=
        List.any_eq_true.mpr ⟨q, hq, by simp [hstart, hmatch]⟩
      simp [hh, hany]

/-- Witness for claim C3: the rebasing of the gitignore line
/secret.txt under root /r, and path-anchored exclusion of the
root-level file by the rebased pattern. -/
theorem claim3_witness :
    (load_gitignore_patterns "/r" (some ["/secret.txt"])
      = some (globNew (pathJoin "/r" (dropSlashes (strTrim "/secret.txt")))).toList) ∧
    (∀ q ∈ (splitPipe "/secret.txt").filterMap globNew,
      q.original ∈ splitPipe "/secret.txt") ∧
    (keepEntry ⟨none, false, false, none, true⟩
        ((globNew "/r/secret.txt").toList) "/r" ("secret.txt", FSNode.file 0) = false) :=
  ⟨(claim3_anchoring "/r").1 "/secret.txt" (by decide) (by decide) (by decide),
   (claim3_anchoring "/r").2.1 "/secret.txt",
   (claim3_anchoring "/r").2.2.2.1 ⟨none, false, false, none, true⟩
     ((globNew "/r/secret.txt").toList) "/r" ("secret.txt", FSNode.file 0)
     ⟨"/r/secret.txt", [GTok.lit '/', GTok.lit 'r', GTok.lit '/', GTok.lit 's',
       GTok.lit 'e', GTok.lit 'c', GTok.lit 'r', GTok.lit 'e', GTok.lit 't',
       GTok.lit '.', GTok.lit 't', GTok.lit 'x', GTok.lit 't']⟩
     (by decide) (by decide) (by decide)⟩

/-- Counterexample to claim C4 as stated: with the relative traversal
root r the rebased pattern string r/secret.txt does not begin with `/`,
is hence matched against base names only, and the root-level secret.txt
is NOT excluded. -/
theorem claim4_counterexample :
    ∃ li ∈ (runMain 10 "r" secretTree ⟨none, false, false, none, false⟩
        (some ["/secret.txt"])).1,
      li.name = "secret.txt" ∧ li.ancestors = [] ∧ li.epath = "r/secret.txt" := by
  decide

/-- Claim C4 (amended): for a run over an absolute traversal root /r
(free of glob metacharacters) with ignore-file processing enabled, the
ignore-file line /secret.txt excludes exactly the root-level
secret.txt: it is absent, while the same-named files in sub/ and
sub/deep/ are rendered. -/
theorem claim4_root_anchored_scope :
    ((runMain 10 "/r" secretTree ⟨none, false, false, none, false⟩
        (some ["/secret.txt"])).1.map Line.name
      = ["sub", "deep", "secret.txt", "secret.txt"]) ∧
    (∀ li ∈ (runMain 10 "/r" secretTree ⟨none, false, false, none, false⟩
        (some ["/secret.txt"])).1, li.epath ≠ "/r/secret.txt") ∧
    ((runMain 10 "/r" secretTree ⟨none, false, false, none, false⟩
        (some ["/secret.txt"])).1.countP (fun li => li.name == "secret.txt") = 2) := by
  refine ⟨by decide, by decide, by decide⟩

/-- Counterexample to claim C7 as stated: the comment line "  #c"
(leading whitespace before the hash) is NOT skipped — it contributes
the name-anchored pattern "#c", because the comment check runs on the
untrimmed line. -/
theorem claim7_counterexample :
    (load_gitignore_patterns "/r" (some ["  #c"])).map (List.map GlobPat.original)
      = some ["#c"] := by
  decide

/-- Claim C7 (amended): ignore-file parsing skips blank lines (after
trimming), and skips a comment only when `#` is the line's very first
raw character — a comment preceded by whitespace instead contributes a
name-anchored pattern of its trimmed text; a line whose trimmed text
starts with `/` is stripped of leading slashes and rebased onto the
root as a root-anchored pattern; every other non-empty, non-comment
line becomes a name-anchored pattern of its trimmed text. -/
theorem claim7_gitignore_parse (rootPath : String) :
    (∀ ls : List String, load_gitignore_patterns rootPath (some ls)
      = some (ls.filterMap (gitLine rootPath))) ∧
    (∀ l : String, strIsEmpty (strTrim l) = true → gitLine rootPath l = none) ∧
    (∀ l : String, strStartsWith l "#" = true → gitLine rootPath l = none) ∧
    (∀ l : String, strIsEmpty (strTrim l) = false → strStartsWith l "#" = false →
      strStartsWith (strTrim l) "/" = true →
      gitLine rootPath l = globNew (pathJoin rootPath (dropSlashes (strTrim l)))) ∧
    (∀ l : String, strIsEmpty (strTrim l) = false → strStartsWith l "#" = false →
      strStartsWith (strTrim l) "/" = false → gitLine rootPath l = globNew (strTrim l)) := by
  refine ⟨gitignore_chars rootPath, ?_, ?_, ?_, ?_⟩
  · intro l h1
    simp [gitLine, h1]
  · intro l h2
    by_cases h1 : strIsEmpty (strTrim l) = true <;> simp [gitLine, h1, h2]
  · intro l h1 h2 h3
    simp [gitLine, h1, h2, h3]
  · intro l h1 h2 h3
    simp [gitLine, h1, h2, h3]

/-- Witness for claim C7 on concrete ignore-file lines of every kind. -/
theorem claim7_witness :
    (load_gitignore_patterns "/r" (some ["  #c", "/secret.txt", "*.log", "", "# d"])
      = some (["  #c", "/secret.txt", "*.log", "", "# d"].filterMap (gitLine "/r"))) ∧
    gitLine "/r" "   " = none ∧
    gitLine "/r" "# d" = none ∧
    gitLine "/r" " /a " = globNew (pathJoin "/r" (dropSlashes (strTrim " /a "))) ∧
    gitLine "/r" "*.log" = globNew (strTrim "*.log") :=
  ⟨(claim7_gitignore_parse "/r").1 _,
   (claim7_gitignore_parse "/r").2.1 "   " (by decide),
   (claim7_gitignore_parse "/r").2.2.1 "# d" (by decide),
   (claim7_gitignore_parse "/r").2.2.2.1 " /a " (by decide) (by decide) (by decide),
   (claim7_gitignore_parse "/r").2.2.2.2 "*.log" (by decide) (by decide) (by decide)⟩

/-- Claim C8: filesystem errors are confined — a directory whose
listing fails yields empty Stats for that subtree at any fuel and
depth; an entry whose metadata read fails is skipped while its
siblings are processed unchanged; a malformed pattern (such as the
unclosed class "[") fails to compile and is silently dropped from the
user patterns and from the ignore file, leaving the rest of the run
intact.  (The model is total, so no error propagates or aborts the
walk and the summary pair is always produced.) -/
theorem claim8_error_confinement :
    (∀ (cfg : Opt) (pats : List GlobPat) (fuel : Nat) (dp : String) (p : List Bool),
      list_contents cfg pats fuel (FSNode.dir none) dp p = ([], Stats.zero)) ∧
    (∀ (recur : FSNode → String → List Bool → List Line × Stats) (dp : String)
        (p : List Bool) (nm : String) (rest : List (String × FSNode)),
      walkEntries recur dp p ((nm, FSNode.metaErr) :: rest) = walkEntries recur dp p rest) ∧
    globNew "[" = none ∧
    (∀ (rootPath : String) (md : Option Nat) (sh pl ng : Bool) (git : Option (List String)),
      mainPatterns rootPath ⟨md, sh, pl, some "ok|[", ng⟩ git
        = mainPatterns rootPath ⟨md, sh, pl, some "ok", ng⟩ git) ∧
    load_gitignore_patterns "/r" (some ["["]) = some [] := by
  refine ⟨?_, ?_, by decide, ?_, by decide⟩
  · intro cfg pats fuel dp p
    cases fuel with
    | zero => rfl
    | succ f =>
      simp only [list_contents]
      by_cases hg : depthStop cfg p = true
      · simp [hg]
      · rw [if_neg hg]
  · intro recur dp p nm rest
    simp only [walkEntries]
    have h0 : entryOut recur dp p (nm, FSNode.metaErr) rest.isEmpty = ([], Stats.zero) := rfl
    rw [h0, combineOut_zero]
  · intro rootPath md sh pl ng git
    have huser : (splitPipe "ok|[").filterMap globNew = (splitPipe "ok").filterMap globNew := by
      decide
    simp only [mainPatterns, huser]

/-- Counterexample to claim C9 as stated: with `show_hidden` enabled
but the user pattern ".env" in effect, an entry named .env is absent
from the output — presence under `show_hidden` is not independent of
the exclusion patterns. -/
theorem claim9_counterexample :
    (⟨none, true, false, some ".env", true⟩ : Opt).show_hidden = true ∧
    (runMain 5 "/r" envTree ⟨none, true, false, some ".env", true⟩ none).1 = [] := by
  refine ⟨rfl, by decide⟩

/-- Claim C9 (amended): when `show_hidden` is false, no rendered line
at any depth has a dot-initial name (so .env is absent), regardless of
the exclusion patterns; when `show_hidden` is true, a visible .env
entry with readable metadata is rendered provided no exclusion pattern
matches it. -/
theorem claim9_hidden (cfg : Opt) (pats : List GlobPat) :
    (∀ (fuel : Nat) (node : FSNode) (dp : String) (p : List Bool) (li : Line),
      cfg.show_hidden = false → li ∈ (list_contents cfg pats fuel node dp p).1 →
      li.name ≠ ".env" ∧ strStartsWith li.name "." = false) ∧
    (∀ (fuel : Nat) (entries : List (String × FSNode)) (dp : String) (p : List Bool)
        (child : FSNode),
      cfg.show_hidden = true → depthStop cfg p = false → (".env", child) ∈ entries →
      child.isMetaErr = false →
      (∀ q ∈ pats, (if strStartsWith q.original "/" then globMatches q (pathJoin dp ".env")
          else globMatches q ".env") = false) →
      ∃ li ∈ (list_contents cfg pats (fuel + 1) (FSNode.dir (some entries)) dp p).1,
        li.name = ".env") := by
  constructor
  · intro fuel node dp p li hsh hli
    have h := lc_hidden cfg pats hsh fuel node dp p li hli
    constructor
    · intro hname
      rw [hname] at h
      exact absurd h (by decide)
    · exact h
  · intro fuel entries dp p child hsh hg hmem hme hq
    have hkeep : keepEntry cfg pats dp (".env", child) = true := by
      simp only [keepEntry]
      have h1 : (!cfg.show_hidden && strStartsWith ".env" ".") = false := by
        rw [hsh]
        rfl
      have h2 : pats.any (fun q =>
          if strStartsWith q.original "/" then globMatches q (pathJoin dp ".env")
          else globMatches q ".env") = false := by
        by_cases hA : pats.any (fun q =>
            if strStartsWith q.original "/" then globMatches q (pathJoin dp ".env")
            else globMatches q ".env") = true
        · obtain ⟨q, hqm, hqt⟩ := List.any_eq_true.mp hA
          rw [hq q hqm] at hqt
          exact absurd hqt (by decide)
        · revert hA
          cases pats.any (fun q =>
            if strStartsWith q.original "/" then globMatches q (pathJoin dp ".env")
            else globMatches q ".env") <;> simp
      simp [h1, h2]
    have hvis : (".env", child) ∈ (sortEntries entries).filter (keepEntry cfg pats dp) :=
      List.mem_filter.mpr ⟨mem_sortEntries.mpr hmem, hkeep⟩
    have hex := walk_exists (fun n d pr => list_contents cfg pats fuel n d pr) dp p
      ((sortEntries entries).filter (keepEntry cfg pats dp)) (".env", child) hvis hme
    simp only [list_contents]
    rw [if_neg (by simp [hg])]
    exact hex

/-- Witness for claim C9: on a root holding only .env, the entry is
rendered with `show_hidden` on and no patterns, and suppressed at every
line with `show_hidden` off. -/
theorem claim9_witness :
    (∃ li ∈ (list_contents ⟨none, true, false, none, true⟩ [] (0 + 1)
        envTree "/r" []).1, li.name = ".env") ∧
    (∀ li ∈ (list_contents ⟨none, false, false, none, true⟩ [] 1 envTree "/r" []).1,
      li.name ≠ ".env") :=
  ⟨(claim9_hidden ⟨none, true, false, none, true⟩ []).2 0 [(".env", FSNode.file 0)] "/r" []
      (FSNode.file 0) rfl (by decide) (List.mem_cons_self _ _) rfl
      (fun q hq => absurd hq (List.not_mem_nil q)),
   fun li hli =>
    ((claim9_hidden ⟨none, false, false, none, true⟩ []).1 1 envTree "/r" [] li rfl hli).1⟩

/-- Claim C10: with `max_depth = d` the walk terminates within depth
`d`: any fuel at least `d` minus the current prefix length yields the
already-stable result (so the needed recursion depth strictly shrinks
with the prefix and is bounded by the depth limit); every rendered line
sits at a depth at least the current prefix length and strictly below
`d`; and each recursive call extends the ancestor prefix by exactly its
entry's last-sibling flag. -/
theorem claim10_depth_bounded (cfg : Opt) (pats : List GlobPat) (d : Nat)
    (hd : cfg.max_depth = some d) :
    (∀ (fuel : Nat) (node : FSNode) (dp : String) (p : List Bool), d - p.length ≤ fuel →
      list_contents cfg pats fuel node dp p
        = list_contents cfg pats (d - p.length) node dp p) ∧
    (∀ (fuel : Nat) (node : FSNode) (dp : String) (p : List Bool) (li : Line),
      li ∈ (list_contents cfg pats fuel node dp p).1 →
      p.length ≤ li.ancestors.length ∧ li.ancestors.length < d) ∧
    (∀ (recur : FSNode → String → List Bool → List Line × Stats) (dp : String)
        (p : List Bool) (nm : String) (es : Option (List (String × FSNode))) (b : Bool),
      entryOut recur dp p (nm, FSNode.dir es) b
        = (⟨p, b, nm, pathJoin dp nm, EKind.dir⟩
              :: (recur (FSNode.dir es) (pathJoin dp nm) (p ++ [b])).1,
           ⟨1 + (recur (FSNode.dir es) (pathJoin dp nm) (p ++ [b])).2.directories,
            (recur (FSNode.dir es) (pathJoin dp nm) (p ++ [b])).2.files⟩)) := by
  refine ⟨lc_stab cfg pats d hd, ?_, ?_⟩
  · intro fuel node dp p li h
    exact ⟨lc_depth cfg pats fuel node dp p li h, lc_bound cfg pats d hd fuel node dp p li h⟩
  · intro recur dp p nm es b
    rfl

/-- Witness for claim C10: on the a/b/c sample with depth limit 1 and
empty prefix, fuel 7 already gives the stable depth-1 result. -/
theorem claim10_witness :
    list_contents ⟨some 1, false, false, none, true⟩ [] 7 depthTree "/t" []
      = list_contents ⟨some 1, false, false, none, true⟩ []
          (1 - ([] : List Bool).length) depthTree "/t" [] :=
  (claim10_depth_bounded ⟨some 1, false, false, none, true⟩ [] 1 rfl).1 7 depthTree "/t" []
    (by decide)
